import Mathlib

/-!
Verification development for the Zone Nova data-pipeline scripts.

Each JavaScript/TypeScript function referenced by the specification is
shallow-embedded as an executable Lean definition: strings are handled
through their character lists (ASCII model of the JS string operations),
JS values are an inductive JSON-like type, fallible code returns `Except`,
and filesystem traversal runs over an explicit directory tree.  The
theorems at the end of the file settle the specification claims against
these embeddings.
-/

namespace Nova

/-- ASCII model of `String.prototype.toLowerCase` on one character. -/
def lowerC (c : Char) : Char :=
  if 65 ≤ c.toNat ∧ c.toNat ≤ 90 then Char.ofNat (c.toNat + 32) else c

/-- ASCII model of `String.prototype.toUpperCase` on one character. -/
def upperC (c : Char) : Char :=
  if 97 ≤ c.toNat ∧ c.toNat ≤ 122 then Char.ofNat (c.toNat - 32) else c

/-- ASCII model of the JS whitespace class `\s` used by `trim`. -/
def isWsC (c : Char) : Bool :=
  decide (c.toNat = 32 ∨ c.toNat = 9 ∨ c.toNat = 10 ∨ c.toNat = 13)

/-- A character matched by `[a-z0-9]`. -/
def isLowerDigitC (c : Char) : Bool :=
  decide ((97 ≤ c.toNat ∧ c.toNat ≤ 122) ∨ (48 ≤ c.toNat ∧ c.toNat ≤ 57))

/-- `String.prototype.trim` on a character list: drop whitespace at both ends. -/
def jsTrimL (l : List Char) : List Char :=
  ((l.dropWhile isWsC).reverse.dropWhile isWsC).reverse

/-- `String.prototype.trim`. -/
def jsTrim (s : String) : String := ⟨jsTrimL s.data⟩

/-- `normalize` from extract_zone_nova_characters.mjs:
`(v || "").toString().trim()`, modelled on string inputs. -/
def normalize (s : String) : String := jsTrim s

/-- `slug` from extract_zone_nova_characters.mjs:
`normalize(v).toLowerCase().replace(/[^a-z0-9]/g, "")`. -/
def slug (s : String) : String :=
  ⟨((normalize s).data.map lowerC).filter isLowerDigitC⟩

/-- The quote characters removed by `slugId` (U+2019 and the ASCII quote). -/
def isQuoteC (c : Char) : Bool := decide (c.toNat = 0x2019 ∨ c.toNat = 39)

/-- `slugId` from extract_zone_nova_characters.ts: trim, lower-case, strip
the quote characters, remove all whitespace, keep only `[a-z0-9_-]`. -/
def slugId (s : String) : String :=
  ⟨((((jsTrimL s.data).map lowerC).filter (fun c => !isQuoteC c)).filter
      (fun c => !isWsC c)).filter
    (fun c => isLowerDigitC c || c.toNat = 95 || c.toNat = 45)⟩

/-- `slug(name) || slug(path.basename(f, ".js"))` — the identifier built at
the use site in extract_zone_nova_characters.mjs (empty string is falsy). -/
def mjsId (name base : String) : String :=
  if slug name = "" then slug base else slug name

/-- Quote-stripping step of the identifier pipeline as the specification
words it. -/
def stripQuotesL (l : List Char) : List Char := l.filter (fun c => !isQuoteC c)

/-- Collapse each maximal run of non-alphanumeric characters to the
separator `sep`; the flag records whether the scan is inside such a run. -/
def collapseRuns (sep : List Char) : Bool → List Char → List Char
  | _, [] => []
  | inRun, c :: rest =>
    if isLowerDigitC c then c :: collapseRuns sep false rest
    else if inRun then collapseRuns sep true rest
    else sep ++ collapseRuns sep true rest

/-- Trim leading and trailing separator characters (a no-op for the empty
separator). -/
def trimSep (sep : List Char) (l : List Char) : List Char :=
  match sep with
  | [] => l
  | s :: _ => ((l.dropWhile (· == s)).reverse.dropWhile (· == s)).reverse

/-- The Identifier Builder algorithm exactly as the specification words it,
parameterised by the separator (the code instantiates it with the empty
string): lower-case, strip quote characters, collapse each run of
non-alphanumeric characters to a single separator, trim leading and
trailing separators. -/
def claimSlug (sep : List Char) (s : String) : String :=
  ⟨trimSep sep (collapseRuns sep false (stripQuotesL (s.data.map lowerC)))⟩

/-- JS `s.includes(t)`: substring test. -/
def inclS (s t : String) : Bool := decide (t.data <:+: s.data)

/-- JS `s.endsWith(t)`. -/
def jsEndsWith (s suf : String) : Bool := decide (suf.data <:+ s.data)

/-- `String(x)` for a possibly-undefined value (JS renders `undefined`). -/
def strOfOpt (o : Option String) : String := o.getD "undefined"

/-- `canonRole` from extract_zone_nova_characters.ts, applied to the raw,
possibly missing, role value (`String(role || "")` collapses a missing
value to the empty string). -/
def canonRole (role : Option String) : String :=
  let r : String := ⟨(jsTrimL (role.getD "").data).map lowerC⟩
  if r = "" then "-"
  else if r = "dps" ∨ inclS r "damage" = true ∨ inclS r "attacker" = true then "dps"
  else if r = "tank" ∨ inclS r "guard" = true ∨ inclS r "defen" = true then "tank"
  else if r = "healer" ∨ inclS r "heal" = true then "healer"
  else if r = "buffer" ∨ inclS r "buff" = true ∨ inclS r "support" = true then "buffer"
  else if r = "debuffer" ∨ inclS r "debuff" = true then "debuffer"
  else if strOfOpt role ∈ (["DPS", "TANK", "HEALER", "BUFFER", "DEBUFFER"] : List String) then
    ⟨(strOfOpt role).data.map lowerC⟩
  else r

/-- A raw upstream record: a JS object whose fields are strings or null,
keys in insertion order. -/
def RawEntry := List (String × Option String)

/-- `obj[k]` guarded by `hasOwnProperty(obj, k) && obj[k] != null`
(first binding wins; JS object keys are unique). -/
def getDef (it : RawEntry) (k : String) : Option String :=
  match it.find? (fun p => p.1 == k) with
  | some p => p.2
  | none => none

/-- `pickAny` from extract_zone_nova_characters.ts: first listed key whose
value is present and non-null. -/
def pickAny (it : RawEntry) : List String → Option String
  | [] => none
  | k :: ks =>
    match getDef it k with
    | some v => some v
    | none => pickAny it ks

/-- The canonical record produced by `resolveEntry`. -/
structure REntry where
  id : String
  name : String
  rarity : String
  element : String
  role : String
deriving DecidableEq

/-- `resolveEntry` from extract_zone_nova_characters.ts. -/
def resolveEntry (it : RawEntry) : Option REntry :=
  let name := jsTrim ((pickAny it ["name", "Name", "title", "Title", "displayName", "display_name"]).getD "")
  let idRaw := pickAny it ["id", "ID", "_id", "key", "slug", "code"]
  let id := slugId (idRaw.getD name)
  if id = "" ∨ name = "" then none
  else
    let rarity : String :=
      ⟨(jsTrim ((pickAny it ["rarity", "Rarity", "grade", "Grade", "rank", "Rank"]).getD "-")).data.map upperC⟩
    let element := jsTrim ((pickAny it ["element", "Element", "attr", "Attr", "attribute", "Attribute"]).getD "-")
    let role := canonRole (pickAny it ["role", "Role", "class", "Class", "type", "Type"])
    let sid := slugId name
    if sid = "joanofarc" ∨ sid = "jeannedarc" ∨ inclS sid "jeanne" = true then
      some ⟨"jeannedarc", "Jeanne D Arc", rarity, element, role⟩
    else
      some ⟨id, name, rarity, element, role⟩

/-- The value stored under `meta[e.id]` in extract_zone_nova_characters.ts. -/
structure MetaVal where
  name : String
  rarity : String
  element : String
  role : String
deriving DecidableEq

/-- JS object key assignment `meta[k] = v`: replace in place when the key
exists, otherwise append (insertion order kept). -/
def setKey (m : List (String × MetaVal)) (k : String) (v : MetaVal) : List (String × MetaVal) :=
  if m.any (fun p => p.1 == k) then m.map (fun p => if p.1 == k then (p.1, v) else p)
  else m ++ [(k, v)]

/-- The meta-building loop of `main` in extract_zone_nova_characters.ts:
entries failing `resolveEntry` are skipped, others are keyed by id. -/
def buildMeta (list : List RawEntry) : List (String × MetaVal) :=
  list.foldl
    (fun m it =>
      match resolveEntry it with
      | none => m
      | some e => setKey m e.id ⟨e.name, e.rarity, e.element, e.role⟩)
    []

/-- The tail of `main` in extract_zone_nova_characters.ts after the record
list has been normalised: build `meta`, throw when fewer than 20 distinct
records were produced (so `writeJson` never runs), otherwise hand the
characters map to the output step. -/
def tsMainTail (list : List RawEntry) : Except String (List (String × MetaVal)) :=
  let meta := buildMeta list
  if meta.length < 20 then
    .error "too few characters extracted; data-structure check required"
  else
    .ok meta

/-- A loaded module namespace: exported names in declaration order, each
possibly `undefined`. -/
def ModuleNS (α : Type) := List (String × Option α)

/-- `mod[k]` on a module namespace (`undefined` when absent). -/
def nsGet {α} (mod : ModuleNS α) (k : String) : Option α :=
  match mod.find? (fun p => p.1 == k) with
  | some p => p.2
  | none => none

/-- `Object.keys(mod).filter((k) => mod[k] !== undefined)`, paired with the
binding values: the usable exports in namespace-declaration order. -/
def definedExports {α} (mod : ModuleNS α) : List (String × α) :=
  mod.filterMap (fun p => p.2.map (fun v => (p.1, v)))

/-- The fixed preference list of `pickExport`. -/
def preferredNames : List String := ["data", "character", "characters", "meta", "payload"]

/-- The `for (const k of preferred)` loop of `pickExport`: value of the first
preference-list name that is defined. -/
def firstPreferred {α} (mod : ModuleNS α) : List String → Option α
  | [] => none
  | k :: ks =>
    match nsGet mod k with
    | some v => some v
    | none => firstPreferred mod ks

/-- `pickExport` from the bulk conversion scripts (src/unnamed/part_001). -/
def pickExport {α} (mod : ModuleNS α) (filePath : String) : Except String α :=
  match nsGet mod "default" with
  | some v => .ok v
  | none =>
    match definedExports mod with
    | [] => .error ("No usable export found: " ++ filePath)
    | [(k, _)] =>
      match nsGet mod k with
      | some v => .ok v
      | none => .error ("No usable export found: " ++ filePath)
    | (k, _) :: _ :: _ =>
      match firstPreferred mod preferredNames with
      | some v => .ok v
      | none =>
        match nsGet mod k with
        | some v => .ok v
        | none => .error ("No usable export found: " ++ filePath)

mutual
/-- A JS value as handled by `sortKeysDeep` and `stableJsonStringify`:
plain JSON data plus the two cases the scripts' replacer singles out
(`bigint` and function values). -/
inductive JVal where
  | jnull : JVal
  | jbool : Bool → JVal
  | jnum : Int → JVal
  | jstr : String → JVal
  | jbig : Int → JVal
  | jfun : JVal
  | jarr : JArr → JVal
  | jobj : JObj → JVal

/-- Array elements in order. -/
inductive JArr where
  | anil : JArr
  | acons : JVal → JArr → JArr

/-- Plain-object fields in insertion order. -/
inductive JObj where
  | onil : JObj
  | ocons : String → JVal → JObj → JObj
end

/-- Object fields as a list of key/value pairs. -/
def objFields : JObj → List (String × JVal)
  | .onil => []
  | .ocons k v tl => (k, v) :: objFields tl

/-- Array elements as a list. -/
def arrElems : JArr → List JVal
  | .anil => []
  | .acons x tl => x :: arrElems tl

/-- Strict code-unit lexicographic order on character lists, the comparison
`Array.prototype.sort` applies to strings by default. -/
def lexLt : List Char → List Char → Bool
  | [], [] => false
  | [], _ :: _ => true
  | _ :: _, [] => false
  | a :: as, b :: bs =>
    if a.toNat < b.toNat then true
    else if b.toNat < a.toNat then false
    else lexLt as bs

/-- Reflexive code-unit lexicographic order on character lists. -/
def lexLe : List Char → List Char → Bool
  | [], _ => true
  | _ :: _, [] => false
  | a :: as, b :: bs =>
    if a.toNat < b.toNat then true
    else if b.toNat < a.toNat then false
    else lexLe as bs

/-- Code-unit lexicographic order on strings. -/
def strLeB (a b : String) : Bool := lexLe a.data b.data

/-- Strict code-unit lexicographic order on strings. -/
def strLtB (a b : String) : Bool := lexLt a.data b.data

/-- Stable insertion of one field by key: the ordering `Object.keys(v).sort()`
produces (code-unit lexicographic, equal keys impossible in a JS object). -/
def insField (k : String) (v : JVal) : JObj → JObj
  | .onil => .ocons k v .onil
  | .ocons k' v' tl =>
    if strLtB k k' then .ocons k v (.ocons k' v' tl)
    else .ocons k' v' (insField k v tl)

/-- Key of the first field of an object, if any. -/
def headKey : JObj → Option String
  | .onil => none
  | .ocons k _ _ => some k

/-- Sort the fields of one object level by key (insertion sort, stable). -/
def sortFields : JObj → JObj
  | .onil => .onil
  | .ocons k v tl => insField k v (sortFields tl)

mutual
/-- `sortKeysDeep` from the conversion scripts: arrays keep element order
and are mapped recursively; plain objects are rebuilt with their keys in
sorted order and their values mapped recursively; all other values pass
through unchanged. -/
def sortKeysDeep : JVal → JVal
  | .jarr xs => .jarr (sortArr xs)
  | .jobj fs => .jobj (sortFields (sortObjVals fs))
  | v => v
termination_by structural v => v

/-- `v.map(sortKeysDeep)` on an array. -/
def sortArr : JArr → JArr
  | .anil => .anil
  | .acons x tl => .acons (sortKeysDeep x) (sortArr tl)
termination_by structural xs => xs

/-- Recurse into each field value of one object level. -/
def sortObjVals : JObj → JObj
  | .onil => .onil
  | .ocons k v tl => .ocons k (sortKeysDeep v) (sortObjVals tl)
termination_by structural fs => fs
end

mutual
/-- Whether a value contains a function anywhere (the member the replacer
rejects). -/
def hasFun : JVal → Bool
  | .jfun => true
  | .jarr xs => hasFunArr xs
  | .jobj fs => hasFunObj fs
  | _ => false
termination_by structural v => v

def hasFunArr : JArr → Bool
  | .anil => false
  | .acons x tl => hasFun x || hasFunArr tl
termination_by structural xs => xs

def hasFunObj : JObj → Bool
  | .onil => false
  | .ocons _ v tl => hasFun v || hasFunObj tl
termination_by structural fs => fs
end

/-- One object level has its keys in non-decreasing lexicographic order. -/
def fieldsSorted : JObj → Bool
  | .onil => true
  | .ocons _ _ .onil => true
  | .ocons k _ (.ocons k' v' tl) => strLeB k k' && fieldsSorted (.ocons k' v' tl)

mutual
/-- Every object at every nesting depth has lexicographically sorted keys. -/
def keysSortedDeep : JVal → Bool
  | .jarr xs => keysSortedArr xs
  | .jobj fs => fieldsSorted fs && keysSortedObj fs
  | _ => true
termination_by structural v => v

def keysSortedArr : JArr → Bool
  | .anil => true
  | .acons x tl => keysSortedDeep x && keysSortedArr tl
termination_by structural xs => xs

def keysSortedObj : JObj → Bool
  | .onil => true
  | .ocons _ v tl => keysSortedDeep v && keysSortedObj tl
termination_by structural fs => fs
end

/-- The `JSON.stringify` gap at indent level `d` for space count 2. -/
def indentStr (d : Nat) : String := ⟨List.replicate (2 * d) ' '⟩

/-- Hexadecimal digit, lower case. -/
def hexDigit (n : Nat) : Char :=
  if n < 10 then Char.ofNat (48 + n) else Char.ofNat (87 + n)

/-- JSON escaping of one character as `JSON.stringify` performs it. -/
def escC (c : Char) : List Char :=
  if c.toNat = 34 then [Char.ofNat 92, Char.ofNat 34]
  else if c.toNat = 92 then [Char.ofNat 92, Char.ofNat 92]
  else if c.toNat = 10 then [Char.ofNat 92, 'n']
  else if c.toNat = 9 then [Char.ofNat 92, 't']
  else if c.toNat = 13 then [Char.ofNat 92, 'r']
  else if c.toNat = 8 then [Char.ofNat 92, 'b']
  else if c.toNat = 12 then [Char.ofNat 92, 'f']
  else if c.toNat < 32 then
    [Char.ofNat 92, 'u', '0', '0', hexDigit (c.toNat / 16), hexDigit (c.toNat % 16)]
  else [c]

/-- A JSON string literal: quote, escape, quote. -/
def quoteStr (s : String) : String :=
  ⟨Char.ofNat 34 :: (s.data.map escC).flatten ++ [Char.ofNat 34]⟩

/-- Decimal digits of a natural number, with explicit fuel so the kernel can
evaluate it (the fuel `n + 1` always suffices). -/
def natToCharsAux : Nat → Nat → List Char
  | _, 0 => []
  | n, fuel + 1 =>
    if n < 10 then [Char.ofNat (48 + n)]
    else natToCharsAux (n / 10) fuel ++ [Char.ofNat (48 + n % 10)]

/-- Decimal digits of a natural number. -/
def natToChars (n : Nat) : List Char := natToCharsAux n (n + 1)

/-- Decimal rendering of an integer, as JS prints whole numbers. -/
def intToChars (n : Int) : List Char :=
  if n < 0 then Char.ofNat 45 :: natToChars n.natAbs else natToChars n.toNat

/-- `Array.prototype.join` with a separator. -/
def joinSep (sep : String) : List String → String
  | [] => ""
  | [s] => s
  | s :: rest => s ++ sep ++ joinSep sep rest

mutual
/-- `JSON.stringify(v, replacer, 2)` at indent level `d`, with the scripts'
replacer: a `bigint` becomes its decimal string (then quoted, being a
string), a function value raises the serialization error. -/
def renderV (d : Nat) : JVal → Except String String
  | .jnull => .ok "null"
  | .jbool b => .ok (if b then "true" else "false")
  | .jnum n => .ok ⟨intToChars n⟩
  | .jstr s => .ok (quoteStr s)
  | .jbig n => .ok (quoteStr ⟨intToChars n⟩)
  | .jfun => .error "Function is not JSON-serializable"
  | .jarr .anil => .ok "[]"
  | .jarr (.acons x tl) =>
    match renderItems (d + 1) (.acons x tl) with
    | .error e => .error e
    | .ok parts =>
      .ok ("[\n" ++ joinSep ",\n" (parts.map (fun p => indentStr (d + 1) ++ p)) ++
           "\n" ++ indentStr d ++ "]")
  | .jobj .onil => .ok "\x7b\x7d"
  | .jobj (.ocons k v tl) =>
    match renderFields (d + 1) (.ocons k v tl) with
    | .error e => .error e
    | .ok parts =>
      .ok ("\x7b\n" ++ joinSep ",\n" (parts.map (fun p => indentStr (d + 1) ++ p)) ++
           "\n" ++ indentStr d ++ "\x7d")
termination_by structural v => v

/-- Render each array element. -/
def renderItems (d : Nat) : JArr → Except String (List String)
  | .anil => .ok []
  | .acons x tl =>
    match renderV d x with
    | .error e => .error e
    | .ok s =>
      match renderItems d tl with
      | .error e => .error e
      | .ok rest => .ok (s :: rest)
termination_by structural xs => xs

/-- Render each object field as `"key": value`. -/
def renderFields (d : Nat) : JObj → Except String (List String)
  | .onil => .ok []
  | .ocons k v tl =>
    match renderV d v with
    | .error e => .error e
    | .ok s =>
      match renderFields d tl with
      | .error e => .error e
      | .ok rest => .ok ((quoteStr k ++ ": " ++ s) :: rest)
termination_by structural fs => fs
end

/-- `stableJsonStringify` from the conversion scripts:
`JSON.stringify(sortKeysDeep(value), replacer, 2) + "\n"`. -/
def stableJsonStringify (value : JVal) : Except String String :=
  match renderV 0 (sortKeysDeep value) with
  | .error e => .error e
  | .ok s => .ok (s ++ "\n")

/-- A nested sample value whose rendering pins down the exact output format
(2-space indent, sorted keys, single trailing newline). -/
def sampleVal : JVal :=
  .jobj (.ocons "b" (.jnum 1)
    (.ocons "a" (.jarr (.acons (.jnum 2)
      (.acons (.jobj (.ocons "d" .jnull (.ocons "c" (.jstr "x") .onil))) .anil))) .onil))

/-- The expected rendering of `sampleVal`. -/
def sampleOut : String :=
  "\x7b\n  \"a\": [\n    2,\n    \x7b\n      \"c\": \"x\",\n      \"d\": null\n    \x7d\n  ],\n  \"b\": 1\n\x7d\n"

/-- Stable insertion used to model `Array.prototype.sort` (which is stable)
under a boolean comparator. -/
def insertBy {α} (le : α → α → Bool) (x : α) : List α → List α
  | [] => [x]
  | y :: ys => if le x y then x :: y :: ys else y :: insertBy le x ys

/-- Stable sort by repeated insertion (models `Array.prototype.sort`). -/
def sortBy {α} (le : α → α → Bool) (l : List α) : List α :=
  l.foldr (insertBy le) []

/-- The canonical record built by `normalizeRecord` in the aggregate .mjs
script (the JS field `class` is spelled `cls` here, `class` being reserved
in Lean). -/
structure CRec where
  id : String
  name : String
  rarity : String
  element : String
  cls : String
  faction : String
deriving DecidableEq

/-- `dedup.set(x.id, x)` on a JS `Map` modelled as an insertion-ordered
list: replace the value in place when the key exists, else append. -/
def mapSet (m : List CRec) (x : CRec) : List CRec :=
  if m.any (fun y => y.id == x.id) then m.map (fun y => if y.id == x.id then x else y)
  else m ++ [x]

/-- Comparator modelling `(a, b) => a.id.localeCompare(b.id)` (lexicographic
in this embedding). -/
def recLe (a b : CRec) : Bool := strLeB a.id b.id

/-- The dedup-and-sort tail of `main` in the aggregate .mjs script: skip
records with an empty id, dedup by id (last seen wins), sort by id. -/
def dedupAndSort (list : List CRec) : List CRec :=
  sortBy recLe ((list.filter (fun x => x.id != "")).foldl mapSet [])

mutual
/-- One filesystem entry as seen by the directory walker. -/
inductive FsEntry where
  | file : String → FsEntry
  | dir : String → FsList → FsEntry

/-- A directory listing. -/
inductive FsList where
  | fnil : FsList
  | fcons : FsEntry → FsList → FsList
end

/-- The per-file filter of `findZoneNovaCharacterFiles`: the normalized path
contains the `/zone-nova/characters/` segment and ends in `.js` or `.ts`. -/
def matchesTarget (p : String) : Bool :=
  inclS p "/zone-nova/characters/" && (jsEndsWith p ".js" || jsEndsWith p ".ts")

mutual
/-- The recursive `walk` of `findZoneNovaCharacterFiles`
(src/unnamed/part_001): directories named `.git` or `node_modules` are
skipped, matching file paths are collected in traversal order. -/
def walkEntry (pre : String) : FsEntry → List String
  | .file name =>
    let full := pre ++ "/" ++ name
    if matchesTarget full then [full] else []
  | .dir name children =>
    if name == ".git" || name == "node_modules" then []
    else walkList (pre ++ "/" ++ name) children

/-- Walk every entry of a directory listing. -/
def walkList (pre : String) : FsList → List String
  | .fnil => []
  | .fcons e tl => walkEntry pre e ++ walkList pre tl
end

/-- Lexicographic comparator for the final `results.sort()`. -/
def strLe (a b : String) : Bool := strLeB a b

/-- `findZoneNovaCharacterFiles` followed by the fatal checks at the top of
`main` (src/unnamed/part_001): a missing search root and an empty result
both abort the run before any output is touched. -/
def discoverFiles (rootExists : Bool) (root : String) (tree : FsList) : Except String (List String) :=
  if !rootExists then .error ("SEARCH_ROOT not found: " ++ root)
  else
    let files := sortBy strLe (walkList root tree)
    if files.isEmpty then .error "No source .js/.ts found under SEARCH_ROOT"
    else .ok files

/-- The per-file loop of `main` in the first script of src/unnamed/part_001:
no per-file error handling, so the first failing load rejects the whole run
(`main().catch` then exits non-zero); on success it counts files written. -/
def convertLoop : List (Except String JVal) → Except String Nat
  | [] => .ok 0
  | .error e :: _ => .error e
  | .ok _ :: rest =>
    match convertLoop rest with
    | .error e => .error e
    | .ok n => .ok (n + 1)

/-- JS `data && typeof data === "object"`: arrays are objects, `null` fails
the truthiness test, everything else is not an object. -/
def isJsObject : JVal → Bool
  | .jarr _ => true
  | .jobj _ => true
  | _ => false

/-- The per-file loop of `main` in the tolerant aggregate .mjs variant
(extract_zone_nova_characters.mjs, lines 261-271): a failing load is warned
and skipped, a non-object value is skipped, an object value contributes one
record. -/
def bulkCollect : List (Except String JVal) → List JVal
  | [] => []
  | .error _ :: rest => bulkCollect rest
  | .ok v :: rest => if isJsObject v then v :: bulkCollect rest else bulkCollect rest

/-- Count of failed loads in a run. -/
def countFailed (loads : List (Except String JVal)) : Nat :=
  loads.countP (fun r => match r with | .error _ => true | .ok _ => false)

/-- Count of loads that succeeded with an object value. -/
def countOkObject (loads : List (Except String JVal)) : Nat :=
  loads.countP (fun r => match r with | .error _ => false | .ok v => isJsObject v)

theorem dropWhile_eq_self_of {p : Char → Bool} {l : List Char}
    (h : ∀ c ∈ l, p c = false) : l.dropWhile p = l := by
  cases l with
  | nil => rfl
  | cons a tl => simp [List.dropWhile_cons, h a (by simp)]

theorem jsTrimL_eq_self {l : List Char} (h : ∀ c ∈ l, isWsC c = false) :
    jsTrimL l = l := by
  unfold jsTrimL
  rw [dropWhile_eq_self_of h, dropWhile_eq_self_of (by simpa using h)]
  simp

theorem lowerC_eq_self {c : Char} (h : ¬(65 ≤ c.toNat ∧ c.toNat ≤ 90)) :
    lowerC c = c := by
  simp [lowerC, h]

theorem alnum_not_ws {c : Char} (h : isLowerDigitC c = true) : isWsC c = false := by
  simp [isLowerDigitC] at h
  simp [isWsC]
  omega

theorem alnum_lowerC_eq_self {c : Char} (h : isLowerDigitC c = true) :
    lowerC c = c := by
  simp [isLowerDigitC] at h
  exact lowerC_eq_self (by omega)

theorem map_eq_self_of {f : Char → Char} {l : List Char}
    (h : ∀ c ∈ l, f c = c) : l.map f = l := by
  induction l with
  | nil => rfl
  | cons a tl ih =>
    simp only [List.map_cons, h a (by simp)]
    rw [ih (fun c hc => h c (by simp [hc]))]

theorem slug_chars {s : String} : ∀ c ∈ (slug s).data, isLowerDigitC c = true := by
  intro c hc
  simp only [slug] at hc
  exact (List.mem_filter.mp hc).2

/-- C9 (confirmed): the Identifier Builder's slug functions are idempotent —
both `slug` from the aggregate .mjs script and `slugId` from the .ts
script satisfy `f (f x) = f x` for every input string. -/
theorem slug_idempotent (x : String) :
    slug (slug x) = slug x ∧ slugId (slugId x) = slugId x := by
  constructor
  · have hch := slug_chars (s := x)
    show (⟨(((normalize (slug x)).data.map lowerC).filter isLowerDigitC : List Char)⟩ : String) = slug x
    have h1 : (normalize (slug x)).data = (slug x).data := by
      show jsTrimL (slug x).data = (slug x).data
      exact jsTrimL_eq_self (fun c hc => alnum_not_ws (hch c hc))
    rw [h1, map_eq_self_of (fun c hc => alnum_lowerC_eq_self (hch c hc)),
      List.filter_eq_self.mpr hch]
  · have hch : ∀ c ∈ (slugId x).data,
        (isLowerDigitC c || c.toNat = 95 || c.toNat = 45) = true := by
      intro c hc
      simp only [slugId] at hc
      exact (List.mem_filter.mp hc).2
    have hnum : ∀ c ∈ (slugId x).data,
        (97 ≤ c.toNat ∧ c.toNat ≤ 122) ∨ (48 ≤ c.toNat ∧ c.toNat ≤ 57) ∨
          c.toNat = 95 ∨ c.toNat = 45 := by
      intro c hc
      have := hch c hc
      simp [isLowerDigitC] at this
      tauto
    show (⟨((((jsTrimL (slugId x).data).map lowerC).filter (fun c => !isQuoteC c)).filter
      (fun c => !isWsC c)).filter
        (fun c => isLowerDigitC c || c.toNat = 95 || c.toNat = 45)⟩ : String) = slugId x
    have h1 : jsTrimL (slugId x).data = (slugId x).data := by
      refine jsTrimL_eq_self (fun c hc => ?_)
      have := hnum c hc
      simp [isWsC]
      omega
    have h2 : (slugId x).data.map lowerC = (slugId x).data :=
      map_eq_self_of (fun c hc => lowerC_eq_self (by have := hnum c hc; omega))
    have h3 : (slugId x).data.filter (fun c => !isQuoteC c) = (slugId x).data := by
      refine List.filter_eq_self.mpr (fun c hc => ?_)
      have := hnum c hc
      simp [isQuoteC]
      omega
    have h4 : (slugId x).data.filter (fun c => !isWsC c) = (slugId x).data := by
      refine List.filter_eq_self.mpr (fun c hc => ?_)
      have := hnum c hc
      simp [isWsC]
      omega
    have h5 : (slugId x).data.filter
        (fun c => isLowerDigitC c || c.toNat = 95 || c.toNat = 45) = (slugId x).data :=
      List.filter_eq_self.mpr hch
    rw [h1, h2, h3, h4, h5]

theorem collapseRuns_nil (b : Bool) (l : List Char) :
    collapseRuns [] b l = l.filter isLowerDigitC := by
  induction l generalizing b with
  | nil => rfl
  | cons c rest ih =>
    by_cases h : isLowerDigitC c = true
    · simp [collapseRuns, h, List.filter_cons, ih]
    · simp at h
      cases b <;> simp [collapseRuns, h, List.filter_cons, ih]

theorem filter_alnum_dropWhile_ws (l : List Char) :
    ((l.dropWhile isWsC).map lowerC).filter isLowerDigitC =
      (l.map lowerC).filter isLowerDigitC := by
  induction l with
  | nil => rfl
  | cons c rest ih =>
    by_cases h : isWsC c = true
    · have hna : isLowerDigitC (lowerC c) = false := by
        simp [isWsC] at h
        rw [lowerC_eq_self (by omega)]
        simp [isLowerDigitC]
        omega
      simp [List.dropWhile_cons, h, ih, List.filter_cons, hna]
    · simp at h
      simp [List.dropWhile_cons, h]

theorem filter_alnum_trim (l : List Char) :
    ((jsTrimL l).map lowerC).filter isLowerDigitC =
      (l.map lowerC).filter isLowerDigitC := by
  unfold jsTrimL
  rw [List.map_reverse, List.filter_reverse, filter_alnum_dropWhile_ws,
    ← List.filter_reverse, ← List.map_reverse, List.reverse_reverse,
    filter_alnum_dropWhile_ws]

/-- C4 (confirmed): with the separator instantiated to the empty string (the
only separator under which the code's output shape is possible), the
.mjs Identifier Builder computes exactly the claimed pipeline — lower-case,
strip quotes, collapse each run of non-alphanumerics to the separator, trim
separators — and when the slug of the name is empty it falls back to the
slug of the filename stem. -/
theorem identifier_builder_spec :
    (∀ s, slug s = claimSlug [] s)
    ∧ (∀ name base, slug name ≠ "" → mjsId name base = slug name)
    ∧ (∀ name base, slug name = "" → mjsId name base = slug base) := by
  have hkey : ∀ l : List Char,
      (l.filter (fun c => !isQuoteC c)).filter isLowerDigitC = l.filter isLowerDigitC := by
    intro l
    rw [List.filter_filter]
    refine List.filter_congr (fun c _ => ?_)
    by_cases hq : isLowerDigitC c = true
    · have hnq : isQuoteC c = false := by
        simp [isLowerDigitC] at hq
        simp [isQuoteC]
        omega
      simp [hq, hnq]
    · simp only [Bool.not_eq_true] at hq
      simp [hq]
  refine ⟨fun s => ?_, fun name base h => ?_, fun name base h => ?_⟩
  · show (⟨(((normalize s).data.map lowerC).filter isLowerDigitC : List Char)⟩ : String) =
      ⟨trimSep [] (collapseRuns [] false (stripQuotesL (s.data.map lowerC)))⟩
    congr 1
    have ht : ∀ y : List Char, trimSep [] y = y := fun y => rfl
    rw [ht, collapseRuns_nil]
    simp only [stripQuotesL]
    rw [hkey]
    have hn : (normalize s).data = jsTrimL s.data := rfl
    rw [hn, filter_alnum_trim]
  · simp [mjsId, h]
  · simp [mjsId, h]

theorem lexLt_le (a b : List Char) (h : lexLt a b = true) : lexLe a b = true := by
  induction a generalizing b with
  | nil => cases b <;> rfl
  | cons x xs ih =>
    cases b with
    | nil => simp [lexLt] at h
    | cons y ys =>
      simp only [lexLt] at h
      simp only [lexLe]
      split at h
      · simp_all
      · split at h
        · simp at h
        · simp_all [ih ys h]

theorem not_lexLt (a b : List Char) (h : lexLt a b = false) : lexLe b a = true := by
  induction a generalizing b with
  | nil =>
    cases b with
    | nil => rfl
    | cons y ys => simp [lexLt] at h
  | cons x xs ih =>
    cases b with
    | nil => rfl
    | cons y ys =>
      simp only [lexLt] at h
      simp only [lexLe]
      by_cases h1 : x.toNat < y.toNat
      · simp [h1] at h
      · by_cases h2 : y.toNat < x.toNat
        · simp [h2]
        · simp [h1, h2] at h ⊢
          exact ih ys h

theorem lexLe_total (a b : List Char) : lexLe a b = true ∨ lexLe b a = true := by
  by_cases h : lexLt a b = true
  · exact Or.inl (lexLt_le a b h)
  · exact Or.inr (not_lexLt a b (by simpa using h))

theorem lexLe_trans (a b c : List Char) (h1 : lexLe a b = true) (h2 : lexLe b c = true) :
    lexLe a c = true := by
  induction a generalizing b c with
  | nil => cases c <;> rfl
  | cons x xs ih =>
    cases b with
    | nil => simp [lexLe] at h1
    | cons y ys =>
      cases c with
      | nil => simp [lexLe] at h2
      | cons z zs =>
        simp only [lexLe] at h1 h2 ⊢
        by_cases hxy : x.toNat < y.toNat
        · by_cases hyz : y.toNat < z.toNat
          · have : x.toNat < z.toNat := by omega
            simp [this]
          · by_cases hzy : z.toNat < y.toNat
            · simp [hxy, hyz, hzy] at h2
            · have : y.toNat = z.toNat := by omega
              have : x.toNat < z.toNat := by omega
              simp [this]
        · by_cases hyx : y.toNat < x.toNat
          · simp [hxy, hyx] at h1
          · have hxey : x.toNat = y.toNat := by omega
            simp [hxy, hyx] at h1
            by_cases hyz : y.toNat < z.toNat
            · have : x.toNat < z.toNat := by omega
              simp [this]
            · by_cases hzy : z.toNat < y.toNat
              · simp [hyz, hzy] at h2
              · have hyez : y.toNat = z.toNat := by omega
                have hxz : ¬ x.toNat < z.toNat := by omega
                have hzx : ¬ z.toNat < x.toNat := by omega
                simp [hyz, hzy] at h2
                simp [hxz, hzx]
                exact ih ys zs h1 h2

theorem strLeB_total (a b : String) : strLeB a b = true ∨ strLeB b a = true :=
  lexLe_total a.data b.data

theorem strLeB_trans (a b c : String) (h1 : strLeB a b = true) (h2 : strLeB b c = true) :
    strLeB a c = true :=
  lexLe_trans a.data b.data c.data h1 h2

theorem strLtB_le (a b : String) (h : strLtB a b = true) : strLeB a b = true :=
  lexLt_le a.data b.data h

theorem not_strLtB (a b : String) (h : strLtB a b = false) : strLeB b a = true :=
  not_lexLt a.data b.data h

theorem mem_insertBy {α} (le : α → α → Bool) (x : α) (l : List α) (z : α)
    (hz : z ∈ insertBy le x l) : z = x ∨ z ∈ l := by
  induction l with
  | nil => simpa [insertBy] using hz
  | cons y ys ih =>
    simp only [insertBy] at hz
    split at hz
    · rcases List.mem_cons.mp hz with h | h
      · exact Or.inl h
      · exact Or.inr h
    · rcases List.mem_cons.mp hz with h | h
      · exact Or.inr (by simp [h])
      · rcases ih h with h' | h'
        · exact Or.inl h'
        · exact Or.inr (by simp [h'])

theorem insertBy_perm {α} (le : α → α → Bool) (x : α) (l : List α) :
    (insertBy le x l).Perm (x :: l) := by
  induction l with
  | nil => simp [insertBy]
  | cons y ys ih =>
    simp only [insertBy]
    split
    · exact List.Perm.refl _
    · exact ((ih.cons y).trans (List.Perm.swap x y ys))

theorem sortBy_perm {α} (le : α → α → Bool) (l : List α) : (sortBy le l).Perm l := by
  induction l with
  | nil => simp [sortBy]
  | cons y ys ih =>
    have : sortBy le (y :: ys) = insertBy le y (sortBy le ys) := rfl
    rw [this]
    exact (insertBy_perm le y (sortBy le ys)).trans (ih.cons y)

theorem insertBy_pairwise {α} (le : α → α → Bool)
    (htot : ∀ a b, le a b = true ∨ le b a = true)
    (htr : ∀ a b c, le a b = true → le b c = true → le a c = true)
    (x : α) (l : List α) (h : l.Pairwise (fun a b => le a b = true)) :
    (insertBy le x l).Pairwise (fun a b => le a b = true) := by
  induction l with
  | nil => simp [insertBy]
  | cons y ys ih =>
    rcases List.pairwise_cons.mp h with ⟨hy, hys⟩
    simp only [insertBy]
    split
    · rename_i hxy
      refine List.pairwise_cons.mpr ⟨?_, h⟩
      intro z hz
      rcases List.mem_cons.mp hz with rfl | hz
      · exact hxy
      · exact htr x y z hxy (hy z hz)
    · rename_i hxy
      have hyx : le y x = true := by
        rcases htot x y with h' | h'
        · exact absurd h' hxy
        · exact h'
      refine List.pairwise_cons.mpr ⟨?_, ih hys⟩
      intro z hz
      rcases mem_insertBy le x ys z hz with rfl | hz
      · exact hyx
      · exact hy z hz

theorem sortBy_pairwise {α} (le : α → α → Bool)
    (htot : ∀ a b, le a b = true ∨ le b a = true)
    (htr : ∀ a b c, le a b = true → le b c = true → le a c = true)
    (l : List α) : (sortBy le l).Pairwise (fun a b => le a b = true) := by
  induction l with
  | nil => simp [sortBy]
  | cons y ys ih => exact insertBy_pairwise le htot htr y (sortBy le ys) ih

theorem mapSet_nodup (m : List CRec) (x : CRec) (h : (m.map (fun y => y.id)).Nodup) :
    ((mapSet m x).map (fun y => y.id)).Nodup := by
  unfold mapSet
  split
  · have heq : (m.map (fun y => if y.id == x.id then x else y)).map (fun y => y.id)
        = m.map (fun y => y.id) := by
      rw [List.map_map]
      refine List.map_congr_left (fun y _ => ?_)
      by_cases hy : y.id = x.id
      · simp [Function.comp, beq_iff_eq, hy]
      · simp [Function.comp, beq_iff_eq, hy]
    rw [heq]
    exact h
  · rename_i hany
    have hx : x.id ∉ m.map (fun y => y.id) := by
      intro hmem
      rcases List.mem_map.mp hmem with ⟨y, hy, hid⟩
      exact hany (List.any_eq_true.mpr ⟨y, hy, by simp [hid]⟩)
    rw [List.map_append]
    simp only [List.map_cons, List.map_nil]
    rw [List.nodup_append]
    refine ⟨h, List.nodup_singleton _, ?_⟩
    intro a ha hax
    rw [List.mem_singleton] at hax
    subst hax
    exact hx ha

theorem foldl_mapSet_nodup (l : List CRec) (acc : List CRec)
    (h : (acc.map (fun y => y.id)).Nodup) :
    ((l.foldl mapSet acc).map (fun y => y.id)).Nodup := by
  induction l generalizing acc with
  | nil => exact h
  | cons x rest ih => exact ih (mapSet acc x) (mapSet_nodup acc x h)

/-- C7 (confirmed): the emitted collection of the aggregate extraction
script has pairwise-distinct ids — records are deduplicated by id before
output, so every id occurs at most once. -/
theorem output_ids_unique (input : List CRec) :
    ((dedupAndSort input).map (fun y => y.id)).Nodup := by
  unfold dedupAndSort
  have hM := foldl_mapSet_nodup (input.filter fun x => x.id != "") [] (by simp)
  have hperm := sortBy_perm recLe ((input.filter fun x => x.id != "").foldl mapSet [])
  exact ((hperm.map (fun y => y.id)).symm).nodup hM

/-- C5 counterexample: in the per-file converter of src/unnamed/part_001 the
loop has no per-file error handling, so a single failing load rejects the
whole run instead of being skipped — with two files of which the second
fails, the run ends in the error, not in a count of one record. -/
theorem part1_single_failure_aborts :
    convertLoop [Except.ok (JVal.jobj .onil), Except.error "SyntaxError"]
      = Except.error "SyntaxError"
    ∧ (convertLoop [Except.ok (JVal.jobj .onil), Except.error "SyntaxError"]).isOk = false :=
  ⟨rfl, rfl⟩

/-- C5 (corrected): in the tolerant aggregate .mjs variant a load failure is
skipped and the record count equals the number of loads that succeeded with
an object value — hence total minus failed when every successful load
yields an object; in the per-file converter of src/unnamed/part_001 any
load failure aborts the whole run. -/
theorem bulk_mode_failure_policy :
    (∀ loads, (bulkCollect loads).length = countOkObject loads)
    ∧ (∀ loads, (∀ v, Except.ok v ∈ loads → isJsObject v = true) →
        (bulkCollect loads).length + countFailed loads = loads.length)
    ∧ (∀ loads e, Except.error e ∈ loads → ∃ e', convertLoop loads = Except.error e') := by
  have part1 : ∀ loads, (bulkCollect loads).length = countOkObject loads := by
    intro loads
    induction loads with
    | nil => rfl
    | cons r rest ih =>
      cases r with
      | error e => simpa [bulkCollect, countOkObject, List.countP_cons] using ih
      | ok v =>
        by_cases hv : isJsObject v = true
        · simp [bulkCollect, hv, countOkObject, List.countP_cons] at ih ⊢
          omega
        · simp only [Bool.not_eq_true] at hv
          simp [bulkCollect, hv, countOkObject, List.countP_cons] at ih ⊢
          exact ih
  refine ⟨part1, fun loads hall => ?_, fun loads e he => ?_⟩
  · induction loads with
    | nil => rfl
    | cons r rest ih =>
      have hrest : ∀ v, Except.ok v ∈ rest → isJsObject v = true :=
        fun v hv => hall v (by simp [hv])
      cases r with
      | error e =>
        simp only [bulkCollect, countFailed, List.countP_cons, List.length_cons]
        have := ih hrest
        simp [countFailed] at this ⊢
        omega
      | ok v =>
        have hv : isJsObject v = true := hall v (by simp)
        simp only [bulkCollect, hv, if_pos, countFailed, List.countP_cons, List.length_cons]
        have := ih hrest
        simp [countFailed] at this ⊢
        omega
  · induction loads with
    | nil => cases he
    | cons r rest ih =>
      cases r with
      | error e' => exact ⟨e', rfl⟩
      | ok v =>
        have hmem : Except.error e ∈ rest := by
          rcases List.mem_cons.mp he with h | h
          · cases h
          · exact h
        rcases ih hmem with ⟨e', he'⟩
        refine ⟨e', ?_⟩
        simp [convertLoop, he']

/-- C10 (confirmed): after normalization the aggregate .ts script fails with
an error — writing no output file — whenever fewer than 20 distinct
character records were produced, and conversely a successful run always
carries at least 20 records. -/
theorem min_count_gate (list : List RawEntry) :
    ((buildMeta list).length < 20 →
      tsMainTail list = Except.error "too few characters extracted; data-structure check required")
    ∧ (∀ m, tsMainTail list = Except.ok m → m = buildMeta list ∧ 20 ≤ m.length) := by
  constructor
  · intro h
    unfold tsMainTail
    simp [h]
  · intro m hm
    unfold tsMainTail at hm
    by_cases h20 : (buildMeta list).length < 20
    · simp [h20] at hm
    · simp [h20] at hm
      subst hm
      exact ⟨rfl, by omega⟩

/-- C10 witness: the empty record list yields zero records, so the run
fails with the gate error. -/
theorem min_count_gate_witness :
    tsMainTail [] = Except.error "too few characters extracted; data-structure check required" :=
  (min_count_gate []).1 (by decide)

theorem inclS_buff_of (r : String) (h : r = "debuffer" ∨ inclS r "debuff" = true) :
    inclS r "buff" = true := by
  rcases h with rfl | h
  · decide
  · simp only [inclS, decide_eq_true_eq] at h ⊢
    exact List.IsInfix.trans (by decide) h

theorem canonRole_ne_debuffer (o : Option String) : canonRole o ≠ "debuffer" := by
  simp only [canonRole]
  set r : String := ⟨(jsTrimL (o.getD "").data).map lowerC⟩ with hr
  by_cases h1 : r = ""
  · rw [if_pos h1]
    decide
  · rw [if_neg h1]
    by_cases h2 : r = "dps" ∨ inclS r "damage" = true ∨ inclS r "attacker" = true
    · rw [if_pos h2]
      decide
    · rw [if_neg h2]
      by_cases h3 : r = "tank" ∨ inclS r "guard" = true ∨ inclS r "defen" = true
      · rw [if_pos h3]
        decide
      · rw [if_neg h3]
        by_cases h4 : r = "healer" ∨ inclS r "heal" = true
        · rw [if_pos h4]
          decide
        · rw [if_neg h4]
          by_cases h5 : r = "buffer" ∨ inclS r "buff" = true ∨ inclS r "support" = true
          · rw [if_pos h5]
            decide
          · rw [if_neg h5]
            by_cases h6 : r = "debuffer" ∨ inclS r "debuff" = true
            · exact absurd (Or.inr (Or.inl (inclS_buff_of r h6))) h5
            · rw [if_neg h6]
              by_cases h7 : strOfOpt o ∈ (["DPS", "TANK", "HEALER", "BUFFER", "DEBUFFER"] : List String)
              · rw [if_pos h7]
                simp only [List.mem_cons, List.mem_singleton] at h7
                rcases h7 with h | h | h | h | h
                · rw [h]
                  decide
                · rw [h]
                  decide
                · rw [h]
                  decide
                · rw [h]
                  decide
                · cases o with
                  | none => simp [strOfOpt] at h
                  | some s =>
                    simp [strOfOpt] at h
                    subst h
                    exact absurd (Or.inr (Or.inl (by rw [hr]; decide))) h5
              · rw [if_neg h7]
                intro hEq
                exact h6 (Or.inl hEq)

theorem resolveEntry_role (it : RawEntry) (e : REntry)
    (he : resolveEntry it = some e)
    (hr : getDef it "role" = none) (hR : getDef it "Role" = none) :
    e.role = canonRole (pickAny it ["class", "Class", "type", "Type"]) := by
  have hp : pickAny it ["role", "Role", "class", "Class", "type", "Type"]
      = pickAny it ["class", "Class", "type", "Type"] := by
    simp [pickAny, hr, hR]
  simp only [resolveEntry, hp] at he
  split at he
  · cases he
  · split at he
    · cases he
      rfl
    · cases he
      rfl

/-- C3 counterexample: a record with class `Warrior` and no explicit role is
normalized by extract_zone_nova_characters.ts to role `"warrior"`, not the
`"DPS"` the claimed class-to-role table prescribes. -/
theorem role_table_counterexample :
    resolveEntry [("name", some "Test Hero"), ("class", some "Warrior")]
      = some ⟨"testhero", "Test Hero", "-", "-", "warrior"⟩
    ∧ (("warrior" : String) == "DPS") = false :=
  ⟨rfl, rfl⟩

/-- C3 (corrected): for records lacking an explicit role the .ts normalizer
derives the role from the class/type field via `canonRole`, which is a
substring-based canonicalizer, not the claimed fixed table: `Guardian` maps
to `"tank"` and `Healer` to `"healer"`, but `Warrior`, `Mage`, `Rogue` and
unknown classes such as `Summoner` map to their lower-cased forms rather
than `"DPS"` or the empty role, `Debuffer` maps to `"buffer"` (no input can
ever yield `"debuffer"`), and a missing class yields `"-"`. -/
theorem role_derivation_amended :
    (∀ (it : RawEntry) (e : REntry), resolveEntry it = some e →
        getDef it "role" = none → getDef it "Role" = none →
        e.role = canonRole (pickAny it ["class", "Class", "type", "Type"]))
    ∧ canonRole (some "Warrior") = "warrior" ∧ canonRole (some "Mage") = "mage"
    ∧ canonRole (some "Rogue") = "rogue" ∧ canonRole (some "Guardian") = "tank"
    ∧ canonRole (some "Healer") = "healer" ∧ canonRole (some "Buffer") = "buffer"
    ∧ canonRole (some "Debuffer") = "buffer" ∧ canonRole (some "Summoner") = "summoner"
    ∧ canonRole none = "-"
    ∧ (∀ o, canonRole o ≠ "debuffer") :=
  ⟨resolveEntry_role, by decide, by decide, by decide, by decide, by decide, by decide,
    by decide, by decide, by decide, canonRole_ne_debuffer⟩

/-- C3 witness: a concrete role-less record with class `Guardian` flows
through `resolveEntry` and indeed carries the class-derived role. -/
theorem role_derivation_amended_witness :
    (⟨"ahero", "A Hero", "-", "-", "tank"⟩ : REntry).role
      = canonRole (pickAny [("name", some "A Hero"), ("class", some "Guardian")]
          ["class", "Class", "type", "Type"]) :=
  role_derivation_amended.1 [("name", some "A Hero"), ("class", some "Guardian")]
    ⟨"ahero", "A Hero", "-", "-", "tank"⟩ rfl rfl rfl

theorem definedExports_key_mem {α} (mod : ModuleNS α) (k : String) (v : α)
    (h : (k, v) ∈ definedExports mod) : k ∈ mod.map Prod.fst := by
  unfold definedExports at h
  rcases List.mem_filterMap.mp h with ⟨⟨k', o⟩, hmem, hmap⟩
  cases o with
  | none => cases hmap
  | some w =>
    simp only [Option.map_some] at hmap
    injection hmap with hmap'
    exact List.mem_map.mpr ⟨(k', some w), hmem, congrArg Prod.fst hmap'⟩

theorem nsGet_head_defined {α} (mod : ModuleNS α)
    (hnd : (mod.map Prod.fst).Nodup) (k : String) (v : α) (rest : List (String × α))
    (h : definedExports mod = (k, v) :: rest) : nsGet mod k = some v := by
  induction mod with
  | nil => cases h
  | cons p tl ih =>
    obtain ⟨k0, o0⟩ := p
    simp only [List.map_cons, List.nodup_cons] at hnd
    obtain ⟨hk0, hnd'⟩ := hnd
    cases o0 with
    | some v0 =>
      have hde : definedExports ((k0, some v0) :: tl) = (k0, v0) :: definedExports tl := by
        simp [definedExports]
      rw [hde] at h
      rw [List.cons.injEq] at h
      obtain ⟨h1, _⟩ := h
      rw [Prod.mk.injEq] at h1
      obtain ⟨rfl, rfl⟩ := h1
      simp [nsGet, List.find?]
    | none =>
      have hde : definedExports ((k0, none) :: tl) = definedExports tl := by
        simp [definedExports]
      rw [hde] at h
      have hkmem : k ∈ tl.map Prod.fst :=
        definedExports_key_mem tl k v (h ▸ List.mem_cons_self _ _)
      have hne : (k0 == k) = false := by
        rcases Bool.eq_false_or_eq_true (k0 == k) with h' | h'
        · exact absurd ((eq_of_beq h') ▸ hkmem) hk0
        · exact h'
      have hstep : nsGet ((k0, none) :: tl) k = nsGet tl k := by
        simp [nsGet, List.find?, hne]
      rw [hstep]
      exact ih hnd' h

theorem firstPreferred_of_find {α} (mod : ModuleNS α) (prefs : List String) (n : String)
    (hf : prefs.find? (fun m => (nsGet mod m).isSome) = some n) :
    firstPreferred mod prefs = nsGet mod n := by
  induction prefs with
  | nil => cases hf
  | cons k ks ih =>
    cases hk : nsGet mod k with
    | some w =>
      rw [List.find?_cons_of_pos _ (by simp [hk])] at hf
      injection hf with hf'
      subst hf'
      simp [firstPreferred, hk]
    | none =>
      rw [List.find?_cons_of_neg _ (by simp [hk])] at hf
      simp [firstPreferred, hk]
      exact ih hf

theorem firstPreferred_of_find_none {α} (mod : ModuleNS α) (prefs : List String)
    (hf : prefs.find? (fun m => (nsGet mod m).isSome) = none) :
    firstPreferred mod prefs = none := by
  induction prefs with
  | nil => rfl
  | cons k ks ih =>
    cases hk : nsGet mod k with
    | some w =>
      rw [List.find?_cons_of_pos _ (by simp [hk])] at hf
      cases hf
    | none =>
      rw [List.find?_cons_of_neg _ (by simp [hk])] at hf
      simp [firstPreferred, hk]
      exact ih hf

/-- C1 (confirmed): over any module namespace with distinct export names,
`pickExport` returns the `default` export when defined; otherwise with
exactly one defined binding it returns that binding's value; otherwise with
several defined bindings it returns the value of the first name of the
preference list `data, character, characters, meta, payload` that is
defined, falling back to the first defined binding in namespace order when
no preferred name is defined; and it throws when no binding is defined. -/
theorem pickExport_resolution {α} (mod : ModuleNS α) (fp : String)
    (hnd : (mod.map Prod.fst).Nodup) :
    (∀ v, nsGet mod "default" = some v → pickExport mod fp = Except.ok v)
    ∧ (nsGet mod "default" = none →
        (definedExports mod = [] →
            pickExport mod fp = Except.error ("No usable export found: " ++ fp))
        ∧ (∀ k v, definedExports mod = [(k, v)] → pickExport mod fp = Except.ok v)
        ∧ (∀ k v q rest, definedExports mod = (k, v) :: q :: rest →
            (∀ n w, preferredNames.find? (fun m => (nsGet mod m).isSome) = some n →
                nsGet mod n = some w → pickExport mod fp = Except.ok w)
            ∧ (preferredNames.find? (fun m => (nsGet mod m).isSome) = none →
                pickExport mod fp = Except.ok v))) := by
  constructor
  · intro v hv
    simp [pickExport, hv]
  · intro hd
    refine ⟨?_, ?_, ?_⟩
    · intro hde
      simp [pickExport, hd, hde]
    · intro k v hde
      have hk := nsGet_head_defined mod hnd k v [] hde
      simp [pickExport, hd, hde, hk]
    · intro k v q rest hde
      have hk := nsGet_head_defined mod hnd k v (q :: rest) hde
      constructor
      · intro n w hf hw
        have hfp := firstPreferred_of_find mod preferredNames n hf
        obtain ⟨q1, q2⟩ := q
        simp [pickExport, hd, hde, hfp, hw]
      · intro hf
        have hfp := firstPreferred_of_find_none mod preferredNames hf
        obtain ⟨q1, q2⟩ := q
        simp [pickExport, hd, hde, hfp, hk]

/-- C1 witness: a namespace with three defined exports and no default
resolves to the preferred name `data`. -/
theorem pickExport_resolution_witness :
    pickExport (α := Nat) [("x", some 1), ("data", some 2), ("y", some 3)] "file.js"
      = Except.ok 2 :=
  (((pickExport_resolution [("x", some 1), ("data", some 2), ("y", some 3)] "file.js"
      (by decide)).2 rfl).2.2 "x" 1 ("data", 2) [("y", 3)] rfl).1 "data" 2 rfl rfl

/-- C4 witness: the slug of a concrete name matches the claimed pipeline,
and the fallback fires exactly when the name's slug is empty. -/
theorem identifier_builder_spec_witness :
    slug "Alpha Knight" = claimSlug [] "Alpha Knight"
    ∧ mjsId "Alpha Knight" "file01" = slug "Alpha Knight"
    ∧ mjsId "!!!" "file01" = slug "file01" :=
  ⟨identifier_builder_spec.1 "Alpha Knight",
   identifier_builder_spec.2.1 "Alpha Knight" "file01" (by decide),
   identifier_builder_spec.2.2 "!!!" "file01" (by decide)⟩

/-- C5 witness: on a run of three loads where the middle one fails and the
others produce objects, the record count plus the failure count equals the
number of files, and one failing load does error the part_001 loop. -/
theorem bulk_mode_failure_policy_witness :
    (bulkCollect [Except.ok (JVal.jobj .onil), Except.error "boom",
        Except.ok (JVal.jobj .onil)]).length
      + countFailed [Except.ok (JVal.jobj .onil), Except.error "boom",
          Except.ok (JVal.jobj .onil)]
      = 3
    ∧ ∃ e', convertLoop [Except.error "boom"] = Except.error e' :=
  ⟨bulk_mode_failure_policy.2.1
      [Except.ok (JVal.jobj .onil), Except.error "boom", Except.ok (JVal.jobj .onil)]
      (fun v hv => by
        rcases List.mem_cons.mp hv with h | h
        · injection h with h'
          subst h'
          rfl
        · rcases List.mem_cons.mp h with h' | h'
          · cases h'
          · rcases List.mem_cons.mp h' with h'' | h''
            · injection h'' with h'''
              subst h'''
              rfl
            · cases h''),
   bulk_mode_failure_policy.2.2 [Except.error "boom"] "boom" (List.mem_singleton.mpr rfl)⟩

mutual
theorem walkEntry_sound (pre : String) (e : FsEntry) (p : String)
    (hp : p ∈ walkEntry pre e) :
    matchesTarget p = true ∧ (pre ++ "/").data <+: p.data := by
  cases e with
  | file name =>
    simp only [walkEntry] at hp
    split at hp
    · rename_i hm
      rw [List.mem_singleton] at hp
      subst hp
      refine ⟨hm, ?_⟩
      refine ⟨name.data, ?_⟩
      rw [← String.data_append]
    · cases hp
  | dir name children =>
    simp only [walkEntry] at hp
    split at hp
    · cases hp
    · have h := walkList_sound (pre ++ "/" ++ name) children p hp
      refine ⟨h.1, ?_⟩
      refine List.IsPrefix.trans ?_ h.2
      refine ⟨name.data ++ "/".data, ?_⟩
      rw [← List.append_assoc, ← String.data_append, ← String.data_append]
termination_by structural e

theorem walkList_sound (pre : String) (t : FsList) (p : String)
    (hp : p ∈ walkList pre t) :
    matchesTarget p = true ∧ (pre ++ "/").data <+: p.data := by
  cases t with
  | fnil => cases hp
  | fcons e tl =>
    simp only [walkList] at hp
    rcases List.mem_append.mp hp with h | h
    · exact walkEntry_sound pre e p h
    · exact walkList_sound pre tl p h
termination_by structural t
end

/-- C8 (confirmed): the directory walker plus its fatal checks — a missing
root aborts, zero matches abort (no partial output), a successful run
returns a nonempty, lexicographically sorted permutation of the traversal
results in which every path has an allowed extension, contains the required
`/zone-nova/characters/` segment, and lives under the root; directories
named `.git` or `node_modules` contribute nothing. -/
theorem directory_walker_spec (rootExists : Bool) (root : String) (tree : FsList) :
    (rootExists = false → discoverFiles rootExists root tree
        = Except.error ("SEARCH_ROOT not found: " ++ root))
    ∧ (rootExists = true → walkList root tree = [] →
        discoverFiles rootExists root tree
          = Except.error "No source .js/.ts found under SEARCH_ROOT")
    ∧ (∀ files, discoverFiles rootExists root tree = Except.ok files →
        files ≠ []
        ∧ files.Pairwise (fun a b => strLe a b = true)
        ∧ files.Perm (walkList root tree)
        ∧ ∀ p ∈ files, matchesTarget p = true ∧ (root ++ "/").data <+: p.data)
    ∧ (∀ pre name children, name = ".git" ∨ name = "node_modules" →
        walkEntry pre (.dir name children) = []) := by
  refine ⟨?_, ?_, ?_, ?_⟩
  · intro h
    subst h
    rfl
  · intro h1 h2
    subst h1
    simp [discoverFiles, h2, sortBy]
  · intro files hf
    cases rootExists with
    | false => cases hf
    | true =>
      simp only [discoverFiles, Bool.not_true, Bool.false_eq_true, if_false] at hf
      split at hf
      · cases hf
      · rename_i hne
        injection hf with hf'
        subst hf'
        have hperm := sortBy_perm strLe (walkList root tree)
        refine ⟨by simpa using hne, ?_, hperm, ?_⟩
        · exact sortBy_pairwise strLe strLeB_total strLeB_trans (walkList root tree)
        · intro p hp
          exact walkList_sound root tree p (hperm.mem_iff.mp hp)
  · intro pre name children h
    rcases h with rfl | rfl
    · rfl
    · rfl

/-- C8 witness: a concrete tree with two matching files and a `.git`
directory discovers exactly the two files, sorted. -/
theorem directory_walker_spec_witness :
    ([("/u/src/data/zone-nova/characters/a.js" : String),
        "/u/src/data/zone-nova/characters/b.js"] ≠ [])
    ∧ ([("/u/src/data/zone-nova/characters/a.js" : String),
        "/u/src/data/zone-nova/characters/b.js"].Pairwise (fun a b => strLe a b = true))
    ∧ ([("/u/src/data/zone-nova/characters/a.js" : String),
        "/u/src/data/zone-nova/characters/b.js"].Perm
          (walkList "/u/src/data/zone-nova/characters"
            (.fcons (.file "b.js") (.fcons (.file "a.js")
              (.fcons (.dir ".git" (.fcons (.file "z.js") .fnil)) .fnil)))))
    ∧ ∀ p ∈ [("/u/src/data/zone-nova/characters/a.js" : String),
        "/u/src/data/zone-nova/characters/b.js"], matchesTarget p = true
          ∧ ("/u/src/data/zone-nova/characters" ++ "/").data <+: p.data :=
  (directory_walker_spec true "/u/src/data/zone-nova/characters"
    (.fcons (.file "b.js") (.fcons (.file "a.js")
      (.fcons (.dir ".git" (.fcons (.file "z.js") .fnil)) .fnil)))).2.2.1
    ["/u/src/data/zone-nova/characters/a.js", "/u/src/data/zone-nova/characters/b.js"] rfl

mutual
theorem renderV_error_msg (d : Nat) (v : JVal) (e : String)
    (h : renderV d v = Except.error e) : e = "Function is not JSON-serializable" := by
  cases v with
  | jnull => cases h
  | jbool b => cases h
  | jnum n => cases h
  | jstr s => cases h
  | jbig n => cases h
  | jfun =>
    injection h with h'
    exact h'.symm
  | jarr xs =>
    cases xs with
    | anil => cases h
    | acons x tl =>
      simp only [renderV] at h
      split at h
      · rename_i e' heq
        injection h with h'
        subst h'
        exact renderItems_error_msg (d + 1) (.acons x tl) e' heq
      · cases h
  | jobj fs =>
    cases fs with
    | onil => cases h
    | ocons k v' tl =>
      simp only [renderV] at h
      split at h
      · rename_i e' heq
        injection h with h'
        subst h'
        exact renderFields_error_msg (d + 1) (.ocons k v' tl) e' heq
      · cases h
termination_by structural v

theorem renderItems_error_msg (d : Nat) (xs : JArr) (e : String)
    (h : renderItems d xs = Except.error e) : e = "Function is not JSON-serializable" := by
  cases xs with
  | anil => cases h
  | acons x tl =>
    simp only [renderItems] at h
    split at h
    · rename_i e' heq
      injection h with h'
      subst h'
      exact renderV_error_msg d x e' heq
    · rename_i s heq
      split at h
      · rename_i e' heq2
        injection h with h'
        subst h'
        exact renderItems_error_msg d tl e' heq2
      · cases h
termination_by structural xs

theorem renderFields_error_msg (d : Nat) (fs : JObj) (e : String)
    (h : renderFields d fs = Except.error e) : e = "Function is not JSON-serializable" := by
  cases fs with
  | onil => cases h
  | ocons k v tl =>
    simp only [renderFields] at h
    split at h
    · rename_i e' heq
      injection h with h'
      subst h'
      exact renderV_error_msg d v e' heq
    · rename_i s heq
      split at h
      · rename_i e' heq2
        injection h with h'
        subst h'
        exact renderFields_error_msg d tl e' heq2
      · cases h
termination_by structural fs
end

mutual
theorem renderV_fails_on_fun (d : Nat) (v : JVal) (h : hasFun v = true) :
    renderV d v = Except.error "Function is not JSON-serializable" := by
  cases v with
  | jnull => simp [hasFun] at h
  | jbool b => simp [hasFun] at h
  | jnum n => simp [hasFun] at h
  | jstr s => simp [hasFun] at h
  | jbig n => simp [hasFun] at h
  | jfun => rfl
  | jarr xs =>
    cases xs with
    | anil => simp [hasFun, hasFunArr] at h
    | acons x tl =>
      have hi := renderItems_fails_on_fun (d + 1) (.acons x tl) h
      simp only [renderV, hi]
  | jobj fs =>
    cases fs with
    | onil => simp [hasFun, hasFunObj] at h
    | ocons k v' tl =>
      have hi := renderFields_fails_on_fun (d + 1) (.ocons k v' tl) h
      simp only [renderV, hi]
termination_by structural v

theorem renderItems_fails_on_fun (d : Nat) (xs : JArr) (h : hasFunArr xs = true) :
    renderItems d xs = Except.error "Function is not JSON-serializable" := by
  cases xs with
  | anil => simp [hasFunArr] at h
  | acons x tl =>
    by_cases hx : hasFun x = true
    · have hv := renderV_fails_on_fun d x hx
      simp only [renderItems, hv]
    · have htl : hasFunArr tl = true := by
        simp only [hasFun, hasFunArr] at h ⊢
        rcases Bool.or_eq_true_iff.mp h with h' | h'
        · exact absurd h' hx
        · exact h'
      have hi := renderItems_fails_on_fun d tl htl
      cases hv : renderV d x with
      | error e =>
        have := renderV_error_msg d x e hv
        subst this
        simp only [renderItems, hv]
      | ok s => simp only [renderItems, hv, hi]
termination_by structural xs

theorem renderFields_fails_on_fun (d : Nat) (fs : JObj) (h : hasFunObj fs = true) :
    renderFields d fs = Except.error "Function is not JSON-serializable" := by
  cases fs with
  | onil => simp [hasFunObj] at h
  | ocons k v tl =>
    by_cases hx : hasFun v = true
    · have hv := renderV_fails_on_fun d v hx
      simp only [renderFields, hv]
    · have htl : hasFunObj tl = true := by
        simp only [hasFunObj] at h
        rcases Bool.or_eq_true_iff.mp h with h' | h'
        · exact absurd h' hx
        · exact h'
      have hi := renderFields_fails_on_fun d tl htl
      cases hv : renderV d v with
      | error e =>
        have := renderV_error_msg d v e hv
        subst this
        simp only [renderFields, hv]
      | ok s => simp only [renderFields, hv, hi]
termination_by structural fs
end

mutual
theorem renderV_ok_of_noFun (d : Nat) (v : JVal) (h : hasFun v = false) :
    ∃ s, renderV d v = Except.ok s := by
  cases v with
  | jnull => exact ⟨_, rfl⟩
  | jbool b => exact ⟨_, rfl⟩
  | jnum n => exact ⟨_, rfl⟩
  | jstr s => exact ⟨_, rfl⟩
  | jbig n => exact ⟨_, rfl⟩
  | jfun => simp [hasFun] at h
  | jarr xs =>
    cases xs with
    | anil => exact ⟨_, rfl⟩
    | acons x tl =>
      obtain ⟨ps, hps⟩ := renderItems_ok_of_noFun (d + 1) (.acons x tl) h
      exact ⟨"[\n" ++ joinSep ",\n" (ps.map (fun p => indentStr (d + 1) ++ p)) ++
        "\n" ++ indentStr d ++ "]", by simp only [renderV, hps]⟩
  | jobj fs =>
    cases fs with
    | onil => exact ⟨_, rfl⟩
    | ocons k v' tl =>
      obtain ⟨ps, hps⟩ := renderFields_ok_of_noFun (d + 1) (.ocons k v' tl) h
      exact ⟨"\x7b\n" ++ joinSep ",\n" (ps.map (fun p => indentStr (d + 1) ++ p)) ++
        "\n" ++ indentStr d ++ "\x7d", by simp only [renderV, hps]⟩
termination_by structural v

theorem renderItems_ok_of_noFun (d : Nat) (xs : JArr) (h : hasFunArr xs = false) :
    ∃ ps, renderItems d xs = Except.ok ps := by
  cases xs with
  | anil => exact ⟨[], rfl⟩
  | acons x tl =>
    simp only [hasFunArr, Bool.or_eq_false_iff] at h
    obtain ⟨s, hs⟩ := renderV_ok_of_noFun d x h.1
    obtain ⟨ps, hps⟩ := renderItems_ok_of_noFun d tl h.2
    exact ⟨s :: ps, by simp only [renderItems, hs, hps]⟩
termination_by structural xs

theorem renderFields_ok_of_noFun (d : Nat) (fs : JObj) (h : hasFunObj fs = false) :
    ∃ ps, renderFields d fs = Except.ok ps := by
  cases fs with
  | onil => exact ⟨[], rfl⟩
  | ocons k v tl =>
    simp only [hasFunObj, Bool.or_eq_false_iff] at h
    obtain ⟨s, hs⟩ := renderV_ok_of_noFun d v h.1
    obtain ⟨ps, hps⟩ := renderFields_ok_of_noFun d tl h.2
    exact ⟨(quoteStr k ++ ": " ++ s) :: ps, by simp only [renderFields, hs, hps]⟩
termination_by structural fs
end

theorem hasFunObj_insField (k : String) (v : JVal) (fs : JObj) :
    hasFunObj (insField k v fs) = (hasFun v || hasFunObj fs) := by
  cases fs with
  | onil => rfl
  | ocons k' v' tl =>
    simp only [insField]
    split
    · rfl
    · simp only [hasFunObj, hasFunObj_insField k v tl, Bool.or_left_comm]
termination_by structural fs

theorem hasFunObj_sortFields (fs : JObj) : hasFunObj (sortFields fs) = hasFunObj fs := by
  cases fs with
  | onil => rfl
  | ocons k v tl =>
    simp only [sortFields, hasFunObj_insField, hasFunObj, hasFunObj_sortFields tl]
termination_by structural fs

mutual
theorem hasFun_sortKeysDeep (v : JVal) : hasFun (sortKeysDeep v) = hasFun v := by
  cases v with
  | jarr xs => simp only [sortKeysDeep, hasFun, hasFunArr_sortArr]
  | jobj fs => simp only [sortKeysDeep, hasFun, hasFunObj_sortFields, hasFunObj_sortObjVals]
  | jnull => rfl
  | jbool b => rfl
  | jnum n => rfl
  | jstr s => rfl
  | jbig n => rfl
  | jfun => rfl
termination_by structural v

theorem hasFunArr_sortArr (xs : JArr) : hasFunArr (sortArr xs) = hasFunArr xs := by
  cases xs with
  | anil => rfl
  | acons x tl =>
    simp only [sortArr, hasFunArr, hasFun_sortKeysDeep, hasFunArr_sortArr]
termination_by structural xs

theorem hasFunObj_sortObjVals (fs : JObj) : hasFunObj (sortObjVals fs) = hasFunObj fs := by
  cases fs with
  | onil => rfl
  | ocons k v tl =>
    simp only [sortObjVals, hasFunObj, hasFun_sortKeysDeep, hasFunObj_sortObjVals]
termination_by structural fs
end

/-- C6 (confirmed): any value containing a function member anywhere makes
`stableJsonStringify` fail with the descriptive serialization error rather
than dropping the member. -/
theorem serialization_rejects_functions (v : JVal) (h : hasFun v = true) :
    stableJsonStringify v = Except.error "Function is not JSON-serializable" := by
  have hs : hasFun (sortKeysDeep v) = true := (hasFun_sortKeysDeep v).symm ▸ h
  have hr := renderV_fails_on_fun 0 (sortKeysDeep v) hs
  simp only [stableJsonStringify, hr]

/-- C6 witness: an object with one function-valued field is rejected. -/
theorem serialization_rejects_functions_witness :
    stableJsonStringify (.jobj (.ocons "f" .jfun .onil))
      = Except.error "Function is not JSON-serializable" :=
  serialization_rejects_functions (.jobj (.ocons "f" .jfun .onil)) rfl

theorem fieldsSorted_tail {a : String} {w : JVal} {fs : JObj}
    (h : fieldsSorted (.ocons a w fs) = true) : fieldsSorted fs = true := by
  cases fs with
  | onil => rfl
  | ocons b w' tl =>
    simp only [fieldsSorted, Bool.and_eq_true] at h
    exact h.2

theorem fieldsSorted_cons_iff (a : String) (w : JVal) (fs : JObj) :
    fieldsSorted (.ocons a w fs) = true ↔
      (∀ b, headKey fs = some b → strLeB a b = true) ∧ fieldsSorted fs = true := by
  cases fs with
  | onil => simp [fieldsSorted, headKey]
  | ocons b w' tl =>
    simp only [fieldsSorted, headKey, Bool.and_eq_true]
    constructor
    · rintro ⟨h1, h2⟩
      refine ⟨fun b' hb => ?_, h2⟩
      injection hb with hb'
      subst hb'
      exact h1
    · rintro ⟨h1, h2⟩
      exact ⟨h1 b rfl, h2⟩

theorem insField_headKey (k : String) (v : JVal) (fs : JObj) :
    headKey (insField k v fs) = some k ∨ headKey (insField k v fs) = headKey fs := by
  cases fs with
  | onil => exact Or.inl rfl
  | ocons k' v' tl =>
    simp only [insField]
    split
    · exact Or.inl rfl
    · exact Or.inr rfl

theorem insField_sorted (k : String) (v : JVal) (fs : JObj)
    (h : fieldsSorted fs = true) : fieldsSorted (insField k v fs) = true := by
  cases fs with
  | onil => rfl
  | ocons k' v' tl =>
    simp only [insField]
    split
    · rename_i hlt
      simp only [fieldsSorted, Bool.and_eq_true]
      exact ⟨strLtB_le k k' hlt, h⟩
    · rename_i hlt
      have hk : strLeB k' k = true := not_strLtB k k' (by simpa using hlt)
      have htl := insField_sorted k v tl (fieldsSorted_tail h)
      refine (fieldsSorted_cons_iff k' v' (insField k v tl)).mpr ⟨?_, htl⟩
      intro b hb
      rcases insField_headKey k v tl with hh | hh
      · rw [hh] at hb
        injection hb with hb'
        subst hb'
        exact hk
      · rw [hh] at hb
        exact ((fieldsSorted_cons_iff k' v' tl).mp h).1 b hb
termination_by structural fs

theorem sortFields_sorted (fs : JObj) : fieldsSorted (sortFields fs) = true := by
  cases fs with
  | onil => rfl
  | ocons k v tl => exact insField_sorted k v (sortFields tl) (sortFields_sorted tl)
termination_by structural fs

theorem keysSortedObj_insField (k : String) (v : JVal) (fs : JObj) :
    keysSortedObj (insField k v fs) = (keysSortedDeep v && keysSortedObj fs) := by
  cases fs with
  | onil => rfl
  | ocons k' v' tl =>
    simp only [insField]
    split
    · rfl
    · simp only [keysSortedObj, keysSortedObj_insField k v tl, Bool.and_left_comm]
termination_by structural fs

theorem keysSortedObj_sortFields (fs : JObj) :
    keysSortedObj (sortFields fs) = keysSortedObj fs := by
  cases fs with
  | onil => rfl
  | ocons k v tl =>
    simp only [sortFields, keysSortedObj_insField, keysSortedObj, keysSortedObj_sortFields tl]
termination_by structural fs

mutual
theorem keysSortedDeep_sort (v : JVal) : keysSortedDeep (sortKeysDeep v) = true := by
  cases v with
  | jarr xs => simp only [sortKeysDeep, keysSortedDeep, keysSortedArr_sort xs]
  | jobj fs =>
    simp only [sortKeysDeep, keysSortedDeep, Bool.and_eq_true]
    refine ⟨sortFields_sorted _, ?_⟩
    rw [keysSortedObj_sortFields]
    exact keysSortedObjVals_sort fs
  | jnull => rfl
  | jbool b => rfl
  | jnum n => rfl
  | jstr s => rfl
  | jbig n => rfl
  | jfun => rfl
termination_by structural v

theorem keysSortedArr_sort (xs : JArr) : keysSortedArr (sortArr xs) = true := by
  cases xs with
  | anil => rfl
  | acons x tl =>
    simp only [sortArr, keysSortedArr, Bool.and_eq_true]
    exact ⟨keysSortedDeep_sort x, keysSortedArr_sort tl⟩
termination_by structural xs

theorem keysSortedObjVals_sort (fs : JObj) : keysSortedObj (sortObjVals fs) = true := by
  cases fs with
  | onil => rfl
  | ocons k v tl =>
    simp only [sortObjVals, keysSortedObj, Bool.and_eq_true]
    exact ⟨keysSortedDeep_sort v, keysSortedObjVals_sort tl⟩
termination_by structural fs
end

theorem arrElems_sortArr (xs : JArr) :
    arrElems (sortArr xs) = (arrElems xs).map sortKeysDeep := by
  cases xs with
  | anil => rfl
  | acons x tl => simp only [sortArr, arrElems, List.map_cons, arrElems_sortArr tl]
termination_by structural xs

theorem natToCharsAux_getLast (fuel n : Nat) (h : n < fuel) :
    (natToCharsAux n fuel).getLast? = some (Char.ofNat (48 + n % 10)) := by
  induction fuel generalizing n with
  | zero => omega
  | succ f ih =>
    simp only [natToCharsAux]
    split
    · rename_i h10
      rw [Nat.mod_eq_of_lt h10]
      rfl
    · rw [List.getLast?_append]
      rfl

theorem intToChars_getLast (n : Int) :
    ∃ m, m < 10 ∧ (intToChars n).getLast? = some (Char.ofNat (48 + m)) := by
  unfold intToChars natToChars
  split
  · refine ⟨n.natAbs % 10, Nat.mod_lt _ (by omega), ?_⟩
    have hlast := natToCharsAux_getLast (n.natAbs + 1) n.natAbs (by omega)
    rw [show (Char.ofNat 45 :: natToCharsAux n.natAbs (n.natAbs + 1))
        = [Char.ofNat 45] ++ natToCharsAux n.natAbs (n.natAbs + 1) from rfl]
    rw [List.getLast?_append, hlast]
    rfl
  · exact ⟨n.toNat % 10, Nat.mod_lt _ (by omega),
      natToCharsAux_getLast (n.toNat + 1) n.toNat (by omega)⟩

theorem digitChar_ne_newline (m : Nat) (h : m < 10) : Char.ofNat (48 + m) ≠ '\n' := by
  interval_cases m <;> decide

theorem strApp_getLast (a b : String) (hb : b.data ≠ []) :
    (a ++ b).data.getLast? = b.data.getLast? := by
  rw [String.data_append, List.getLast?_append]
  cases hbl : b.data.getLast? with
  | none =>
    rw [List.getLast?_eq_none_iff] at hbl
    exact absurd hbl hb
  | some c => rfl

theorem renderV_ok_getLast (d : Nat) (v : JVal) (s : String)
    (h : renderV d v = Except.ok s) : s.data.getLast? ≠ some '\n' := by
  cases v with
  | jnull =>
    injection h with h'
    subst h'
    decide
  | jbool b =>
    cases b <;> (injection h with h'; subst h'; decide)
  | jnum n =>
    injection h with h'
    subst h'
    obtain ⟨m, hm, hl⟩ := intToChars_getLast n
    rw [show (⟨intToChars n⟩ : String).data = intToChars n from rfl, hl]
    intro hEq
    injection hEq with hEq'
    exact digitChar_ne_newline m hm hEq'
  | jstr s0 =>
    injection h with h'
    subst h'
    have hq : (quoteStr s0).data
        = (Char.ofNat 34 :: (s0.data.map escC).flatten) ++ [Char.ofNat 34] := by
      simp [quoteStr]
    rw [hq, List.getLast?_concat]
    intro hEq
    injection hEq with hEq'
    exact absurd hEq' (by decide)
  | jbig n =>
    injection h with h'
    subst h'
    have hq : (quoteStr ⟨intToChars n⟩).data
        = (Char.ofNat 34 :: ((⟨intToChars n⟩ : String).data.map escC).flatten)
          ++ [Char.ofNat 34] := by
      simp [quoteStr]
    rw [hq, List.getLast?_concat]
    intro hEq
    injection hEq with hEq'
    exact absurd hEq' (by decide)
  | jfun => cases h
  | jarr xs =>
    cases xs with
    | anil =>
      injection h with h'
      subst h'
      decide
    | acons x tl =>
      simp only [renderV] at h
      split at h
      · cases h
      · injection h with h'
        subst h'
        rw [strApp_getLast _ "]" (by decide)]
        decide
  | jobj fs =>
    cases fs with
    | onil =>
      injection h with h'
      subst h'
      decide
    | ocons k v' tl =>
      simp only [renderV] at h
      split at h
      · cases h
      · injection h with h'
        subst h'
        rw [strApp_getLast _ "\x7d" (by decide)]
        decide

theorem stableJson_trailing (v : JVal) (s : String)
    (h : stableJsonStringify v = Except.ok s) :
    s.data.getLast? = some '\n' ∧ s.data.dropLast.getLast? ≠ some '\n' := by
  unfold stableJsonStringify at h
  split at h
  · cases h
  · rename_i body hr
    injection h with h'
    subst h'
    constructor
    · rw [strApp_getLast _ "\n" (by decide)]
      rfl
    · rw [String.data_append, show ("\n" : String).data = ['\n'] from rfl,
        List.dropLast_concat]
      exact renderV_ok_getLast 0 (sortKeysDeep v) body hr

/-- C2 (confirmed): for every function-free value the Output Writer
succeeds, the emitted value has every object's keys sorted lexicographically
at every depth while arrays keep their element order, the text ends in
exactly one trailing newline, and a concrete nested value renders to the
exact 2-space-indented, key-sorted output — the writer is a pure function of
its input, so re-runs over unchanged input are byte-identical. -/
theorem output_writer_stable :
    (∀ v, hasFun v = false → ∃ s, stableJsonStringify v = Except.ok s)
    ∧ (∀ v, keysSortedDeep (sortKeysDeep v) = true)
    ∧ (∀ xs, arrElems (sortArr xs) = (arrElems xs).map sortKeysDeep)
    ∧ (∀ v s, stableJsonStringify v = Except.ok s →
        s.data.getLast? = some '\n' ∧ s.data.dropLast.getLast? ≠ some '\n')
    ∧ stableJsonStringify sampleVal = Except.ok sampleOut := by
  refine ⟨?_, keysSortedDeep_sort, arrElems_sortArr, stableJson_trailing, rfl⟩
  intro v hv
  have hs : hasFun (sortKeysDeep v) = false := by
    rw [hasFun_sortKeysDeep]
    exact hv
  obtain ⟨s, hsr⟩ := renderV_ok_of_noFun 0 (sortKeysDeep v) hs
  exact ⟨s ++ "\n", by simp only [stableJsonStringify, hsr]⟩

/-- C2 witness: a concrete function-free value serializes successfully and
its output carries exactly one trailing newline. -/
theorem output_writer_stable_witness :
    (∃ s, stableJsonStringify (JVal.jnum 7) = Except.ok s)
    ∧ ("7\n".data.getLast? = some '\n' ∧ "7\n".data.dropLast.getLast? ≠ some '\n') :=
  ⟨output_writer_stable.1 (JVal.jnum 7) rfl,
   output_writer_stable.2.2.2.1 (JVal.jnum 7) "7\n" rfl⟩

end Nova
